import Mathlib

/-!
Verification of `brainbuilder/utils/sonata/split_population.py`.

The Python module splits SONATA node/edge populations into sub-populations.
This file gives a shallow embedding of its pure core: arrays become lists,
h5 groups become association lists, pandas id-mapping frames become lists of
(old_id, new_id) pairs, and fallible code returns `Except`.
-/

namespace SplitPopulation

/-- Membership mask, modelling `numpy.isin` over a 1-D integer array:
for each element of `elements`, `true` iff it occurs in `test_elements`,
xor-ed with the `invert` flag. -/
def np_isin (elements test_elements : List Int) (invert : Bool) : List Bool :=
  elements.map (fun e => xor (decide (e ∈ test_elements)) invert)

/-- Models `_create_chunked_slices(length, chunk_size)`: the start offsets of the
half-open windows produced by `range(0, length, chunk_size)`; the window at
start `s` is `elements[s : s + chunk_size]`. -/
def _create_chunked_slices (length chunk_size : Nat) : List Nat :=
  (List.range ((length + chunk_size - 1) / chunk_size)).map (fun k => k * chunk_size)

/-- Models `_isin_worker(elements, test_elements, sl, invert)`: `numpy.isin`
applied to the single window `elements[sl]`. -/
def _isin_worker (elements test_elements : List Int) (start chunk_size : Nat)
    (invert : Bool) : List Bool :=
  np_isin ((elements.drop start).take chunk_size) test_elements invert

/-- Models the chunked path of `_isin`: the per-window masks computed by
`_isin_worker` over `_create_chunked_slices`, concatenated in window order. -/
def _isin_chunked (elements test_elements : List Int) (invert : Bool)
    (chunk_size : Nat) : List Bool :=
  ((_create_chunked_slices elements.length chunk_size).map
    (fun s => _isin_worker elements test_elements s chunk_size invert)).flatten

/-- Generic form of the chunked traversal: apply `g` to each fixed-size window
of `l` and concatenate the results in window order. `_isin_chunked` is this
with `g` the whole-window membership test. -/
def chunkApply {α β : Type} (g : List α → List β) (C : Nat) (l : List α) : List β :=
  ((_create_chunked_slices l.length C).map (fun s => g ((l.drop s).take C))).flatten

theorem create_chunked_slices_zero (C : Nat) (hC : 1 ≤ C) :
    _create_chunked_slices 0 C = [] := by
  unfold _create_chunked_slices
  have h : (0 + C - 1) / C = 0 := Nat.div_eq_of_lt (by omega)
  rw [h]
  rfl

theorem chunk_count_succ (L C : Nat) (hL : 1 ≤ L) (hC : 1 ≤ C) :
    (L + C - 1) / C = ((L - C) + C - 1) / C + 1 := by
  have h1 : L + C - 1 = (L - 1) + C := by omega
  rw [h1, Nat.add_div_right _ hC]
  rcases Nat.lt_or_ge (L - 1) C with h | h
  · have e1 : (L - 1) / C = 0 := Nat.div_eq_of_lt h
    have e2 : (L - C) + C - 1 = C - 1 := by omega
    have e3 : (C - 1) / C = 0 := Nat.div_eq_of_lt (by omega)
    rw [e1, e2, e3]
  · have e1 : (L - C) + C - 1 = ((L - 1) - C) + C := by omega
    rw [e1, Nat.add_div_right _ hC, Nat.div_eq_sub_div hC h]

theorem create_chunked_slices_cons (L C : Nat) (hL : 1 ≤ L) (hC : 1 ≤ C) :
    _create_chunked_slices L C =
      0 :: (_create_chunked_slices (L - C) C).map (fun s => s + C) := by
  unfold _create_chunked_slices
  rw [chunk_count_succ L C hL hC, List.range_succ_eq_map]
  simp only [List.map_cons, List.map_map, Nat.zero_mul]
  refine congrArg (List.cons 0) ?_
  refine List.map_congr_left ?_
  intro k _
  simp [Function.comp, Nat.succ_mul]

theorem chunkApply_eq_of_append {α β : Type} (g : List α → List β)
    (hg : ∀ a b : List α, g (a ++ b) = g a ++ g b) (C : Nat) (hC : 1 ≤ C)
    (l : List α) : chunkApply g C l = g l := by
  have hnil : g [] = [] := by
    have h := hg [] []
    have h2 := congrArg List.length h
    simp only [List.append_nil, List.length_append] at h2
    exact List.eq_nil_of_length_eq_zero (by omega)
  have main : ∀ n (l : List α), l.length ≤ n → chunkApply g C l = g l := by
    intro n
    induction n with
    | zero =>
      intro l hl
      have hl0 : l = [] := List.eq_nil_of_length_eq_zero (by omega)
      subst hl0
      simp [chunkApply, create_chunked_slices_zero C hC, hnil]
    | succ n ih =>
      intro l hl
      cases l with
      | nil => simp [chunkApply, create_chunked_slices_zero C hC, hnil]
      | cons x xs =>
        have hL : 1 ≤ (x :: xs).length := by simp
        have hstep : chunkApply g C (x :: xs) =
            g ((x :: xs).take C) ++ chunkApply g C ((x :: xs).drop C) := by
          unfold chunkApply
          rw [create_chunked_slices_cons ((x :: xs).length) C hL hC]
          simp only [List.map_cons, List.map_map, List.flatten_cons, List.drop_zero,
            List.length_drop]
          refine congrArg _ ?_
          refine congrArg List.flatten ?_
          refine List.map_congr_left ?_
          intro s _
          simp only [Function.comp]
          rw [Nat.add_comm s C, ← List.drop_drop]
        rw [hstep]
        have hlen : ((x :: xs).drop C).length ≤ n := by
          simp only [List.length_drop]
          have : (x :: xs).length ≤ n + 1 := hl
          omega
        rw [ih _ hlen, ← hg, List.take_append_drop]
  exact main l.length l (Nat.le_refl _)

theorem np_isin_append (a b test_elements : List Int) (invert : Bool) :
    np_isin (a ++ b) test_elements invert =
      np_isin a test_elements invert ++ np_isin b test_elements invert := by
  simp [np_isin]

/-- C1: for every 1-D integer array, needle set and invert flag, the chunked
membership test (`_isin`'s parallel path: split into fixed-size windows, test
each window, concatenate per-window masks in window order) returns exactly the
mask a single whole-array membership test would return, for every chunk size
at least 1; on an empty array it returns the empty mask. -/
theorem isin_chunked_eq_np_isin (elements test_elements : List Int)
    (invert : Bool) (chunk_size : Nat) (hC : 1 ≤ chunk_size) :
    _isin_chunked elements test_elements invert chunk_size =
      np_isin elements test_elements invert ∧
    (elements = [] → _isin_chunked elements test_elements invert chunk_size = []) := by
  have h := chunkApply_eq_of_append (fun w => np_isin w test_elements invert)
    (fun a b => np_isin_append a b test_elements invert) chunk_size hC elements
  constructor
  · exact h
  · intro he
    subst he
    simpa [np_isin] using h

theorem isin_chunked_eq_np_isin_witness :
    1 ≤ 2 ∧
      (_isin_chunked [1, 5, 7, 5, 9] [5, 9] false 2 =
        np_isin [1, 5, 7, 5, 9] [5, 9] false) :=
  ⟨by decide, (isin_chunked_eq_np_isin [1, 5, 7, 5, 9] [5, 9] false 2 (by decide)).1⟩

/-- Models `_get_population_name(src, dst, synapse_type='chemical')`:
the name of the edge population between node populations `src` and `dst`. -/
def _get_population_name (src dst : String) (synapse_type : String := "chemical") :
    String :=
  if src = dst then src else src ++ "__" ++ dst ++ "__" ++ synapse_type

/-- C9: `_get_population_name` returns `src` itself when `src = dst`, and
`src ++ "__" ++ dst ++ "__chemical"` when they differ; moreover for a
self-pair the result is never the suffixed string. -/
theorem get_population_name_spec (src dst : String) :
    (src = dst → _get_population_name src dst = src) ∧
    (src ≠ dst →
      _get_population_name src dst = src ++ "__" ++ dst ++ "__" ++ "chemical") ∧
    (src = dst →
      _get_population_name src dst ≠ src ++ "__" ++ dst ++ "__" ++ "chemical") := by
  refine ⟨?_, ?_, ?_⟩
  · intro h
    simp [_get_population_name, h]
  · intro h
    simp [_get_population_name, h]
  · intro h heq
    have h1 : _get_population_name src dst = src := by simp [_get_population_name, h]
    rw [h1] at heq
    have h2 := congrArg String.length heq
    have h3 : ("__" : String).length = 2 := rfl
    have h4 : ("chemical" : String).length = 8 := rfl
    simp only [String.length_append, h3, h4] at h2
    omega

theorem get_population_name_spec_witness :
    _get_population_name "A" "A" = "A" ∧
      _get_population_name "A" "B" = "A" ++ "__" ++ "B" ++ "__" ++ "chemical" :=
  ⟨(get_population_name_spec "A" "A").1 rfl,
   (get_population_name_spec "A" "B").2.1 (by decide)⟩

/-- The in-memory shape of a new edge population being written by
`_copy_edge_attributes`/`_finalize_edges`: the five SONATA bookkeeping
datasets under `/edges/<name>`. -/
structure NewEdges where
  source_node_id : List Nat
  target_node_id : List Nat
  edge_type_id : List Int
  edge_group_id : List Int
  edge_group_index : List Nat

/-- Models `_finalize_edges(new_edges)`: with `edge_count` the length of the
already-copied `source_node_id` column, set `edge_type_id` to
`np.full(edge_count, -1)`, `edge_group_id` to `np.full(edge_count, 0)` and
`edge_group_index` to `np.arange(edge_count)`. -/
def _finalize_edges (new_edges : NewEdges) : NewEdges :=
  let edge_count := new_edges.source_node_id.length
  { new_edges with
    edge_type_id := List.replicate edge_count (-1)
    edge_group_id := List.replicate edge_count 0
    edge_group_index := List.range edge_count }

/-- C8: `_finalize_edges` leaves the copied id columns untouched and, for an
output population with `count` edges, sets `edge_type_id` to `count` copies of
the sentinel -1, `edge_group_id` to `count` copies of 0, and
`edge_group_index` to the sequence `0..count-1`, so all three bookkeeping
columns are row-aligned with the copied edges. -/
theorem finalize_edges_spec (new_edges : NewEdges) :
    ((_finalize_edges new_edges).source_node_id = new_edges.source_node_id ∧
     (_finalize_edges new_edges).target_node_id = new_edges.target_node_id) ∧
    ((_finalize_edges new_edges).edge_type_id.length =
        new_edges.source_node_id.length ∧
     (_finalize_edges new_edges).edge_group_id.length =
        new_edges.source_node_id.length ∧
     (_finalize_edges new_edges).edge_group_index.length =
        new_edges.source_node_id.length) ∧
    (∀ i, i < new_edges.source_node_id.length →
      (_finalize_edges new_edges).edge_type_id[i]? = some (-1) ∧
      (_finalize_edges new_edges).edge_group_id[i]? = some 0 ∧
      (_finalize_edges new_edges).edge_group_index[i]? = some i) := by
  refine ⟨⟨rfl, rfl⟩, ⟨by simp [_finalize_edges], by simp [_finalize_edges],
    by simp [_finalize_edges]⟩, ?_⟩
  intro i hi
  refine ⟨?_, ?_, ?_⟩
  · simp [_finalize_edges, List.getElem?_replicate, hi]
  · simp [_finalize_edges, List.getElem?_replicate, hi]
  · simp [_finalize_edges, List.getElem?_range, hi]

theorem finalize_edges_spec_witness :
    (_finalize_edges (NewEdges.mk [3, 4] [0, 1] [] [] [])).edge_type_id[1]? =
        some (-1) ∧
      (_finalize_edges (NewEdges.mk [3, 4] [0, 1] [] [] [])).edge_group_index[1]? =
        some 1 :=
  ⟨((finalize_edges_spec (NewEdges.mk [3, 4] [0, 1] [] [] [])).2.2 1 (by decide)).1,
   ((finalize_edges_spec (NewEdges.mk [3, 4] [0, 1] [] [] [])).2.2 1 (by decide)).2.2⟩

/-- Models `_get_node_id_mapping(split_nodes)`: for each new population, a
frame whose index is the population's old-id index `df.index` and whose
`new_id` column is `np.arange(len(df))`. -/
def _get_node_id_mapping (split_nodes : List (String × List Int)) :
    List (String × List (Int × Nat)) :=
  split_nodes.map (fun p => (p.1, p.2.zip (List.range p.2.length)))

theorem zip_range_getElem (old_ids : List Int) (k : Nat)
    (hk : k < (old_ids.zip (List.range old_ids.length)).length) :
    (old_ids.zip (List.range old_ids.length))[k] =
      (old_ids.get ⟨k, by simpa using hk⟩, k) := by
  have hk2 : k < old_ids.length := by simpa using hk
  rw [List.getElem_zip]
  rw [List.get_eq_getElem]
  exact congrArg _ (List.getElem_range k (by simpa using hk2))

/-- C2: for every partition result, `_get_node_id_mapping` produces for each
population with n rows a mapping whose old-id column is the table's index in
table order and whose new ids are exactly `0..n-1` in that order; when the old
ids are distinct (as produced by every partition), the mapping is a bijection
from the old-id set onto `[0, n)` preserving the relative order of old ids. -/
theorem get_node_id_mapping_spec (split_nodes : List (String × List Int))
    (population : String) (old_ids : List Int)
    (hmem : (population, old_ids) ∈ split_nodes) (hnd : old_ids.Nodup) :
    ∃ m, (population, m) ∈ _get_node_id_mapping split_nodes ∧
      m.map Prod.fst = old_ids ∧
      m.map Prod.snd = List.range old_ids.length ∧
      (∀ p ∈ m, ∀ q ∈ m, p.1 = q.1 → p = q) ∧
      (∀ new_id, new_id < old_ids.length → ∃ old_id, (old_id, new_id) ∈ m) ∧
      (∀ old_id ∈ old_ids, ∃ new_id, (old_id, new_id) ∈ m) := by
  refine ⟨old_ids.zip (List.range old_ids.length), ?_, ?_, ?_, ?_, ?_, ?_⟩
  · exact List.mem_map.mpr ⟨(population, old_ids), hmem, rfl⟩
  · exact List.map_fst_zip _ _ (by simp)
  · exact List.map_snd_zip _ _ (by simp)
  · intro p hp q hq hfst
    obtain ⟨i, hi, hpi⟩ := List.mem_iff_getElem.mp hp
    obtain ⟨j, hj, hqj⟩ := List.mem_iff_getElem.mp hq
    rw [zip_range_getElem old_ids i hi] at hpi
    rw [zip_range_getElem old_ids j hj] at hqj
    have hio : i < old_ids.length := by simpa using hi
    have hjo : j < old_ids.length := by simpa using hj
    have hvals : old_ids.get ⟨i, hio⟩ = old_ids.get ⟨j, hjo⟩ := by
      have h1 : p.1 = old_ids.get ⟨i, hio⟩ := by rw [← hpi]
      have h2 : q.1 = old_ids.get ⟨j, hjo⟩ := by rw [← hqj]
      rw [← h1, ← h2, hfst]
    rw [List.get_eq_getElem, List.get_eq_getElem] at hvals
    have hij : i = j := (hnd.getElem_inj_iff).mp hvals
    subst hij
    rw [← hpi, ← hqj]
  · intro new_id hlt
    have hk : new_id < (old_ids.zip (List.range old_ids.length)).length := by
      simpa using hlt
    refine ⟨old_ids.get ⟨new_id, hlt⟩, ?_⟩
    have := zip_range_getElem old_ids new_id hk
    rw [← this]
    exact List.getElem_mem hk
  · intro old_id hold
    obtain ⟨i, hi, hval⟩ := List.mem_iff_getElem.mp hold
    have hk : i < (old_ids.zip (List.range old_ids.length)).length := by simpa using hi
    refine ⟨i, ?_⟩
    have h := zip_range_getElem old_ids i hk
    have h2 : (old_ids.get ⟨i, hi⟩, i) ∈ old_ids.zip (List.range old_ids.length) := by
      rw [← h]
      exact List.getElem_mem hk
    rw [List.get_eq_getElem] at h2
    rw [hval] at h2
    exact h2

theorem get_node_id_mapping_spec_witness :
    ((("L2_X", [7]) ∈ ([("L2_X", [7]), ("L6_Y", [3, 9])] :
        List (String × List Int))) ∧
      ([(3 : Int), 9]).Nodup) ∧
    ∃ m, ("L6_Y", m) ∈ _get_node_id_mapping [("L2_X", [7]), ("L6_Y", [3, 9])] ∧
      m.map Prod.fst = [3, 9] ∧
      m.map Prod.snd = List.range 2 ∧
      (∀ p ∈ m, ∀ q ∈ m, p.1 = q.1 → p = q) ∧
      (∀ new_id, new_id < ([(3 : Int), 9]).length →
        ∃ old_id, (old_id, new_id) ∈ m) ∧
      (∀ old_id ∈ ([(3 : Int), 9]), ∃ new_id, (old_id, new_id) ∈ m) :=
  ⟨⟨by decide, by decide⟩,
   get_node_id_mapping_spec [("L2_X", [7]), ("L6_Y", [3, 9])] "L6_Y" [3, 9]
     (by decide) (by decide)⟩

/-- numpy boolean-mask indexing `arr[mask]`: keep the entries of `l` whose
mask bit is true. -/
def applyMask {α : Type} (l : List α) (mask : List Bool) : List α :=
  (l.zip mask).filterMap (fun p => if p.2 then some p.1 else none)

/-- One window body of the chunk loop of `_copy_edge_attributes`: compute the
source and target membership masks with `np.isin`, combine them with `&`, and
keep the rows selected by the combined mask. -/
def _copy_chunk (chunk : List (Int × Int)) (src_ids dst_ids : List Int) :
    List (Int × Int) :=
  let sgid_mask := np_isin (chunk.map Prod.fst) src_ids false
  let tgid_mask := np_isin (chunk.map Prod.snd) dst_ids false
  applyMask chunk (List.zipWith and sgid_mask tgid_mask)

theorem applyMask_map_pred {α : Type} (l : List α) (p : α → Bool) :
    applyMask l (l.map p) = l.filter p := by
  induction l with
  | nil => rfl
  | cons x xs ih =>
    simp only [applyMask, List.map_cons, List.zip_cons_cons, List.filterMap_cons,
      List.filter_cons] at ih ⊢
    cases h : p x <;> simp [h, ih]

theorem copy_chunk_eq_filter (chunk : List (Int × Int)) (src_ids dst_ids : List Int) :
    _copy_chunk chunk src_ids dst_ids =
      chunk.filter (fun e => decide (e.1 ∈ src_ids) && decide (e.2 ∈ dst_ids)) := by
  have hmask : List.zipWith and (np_isin (chunk.map Prod.fst) src_ids false)
      (np_isin (chunk.map Prod.snd) dst_ids false) =
      chunk.map (fun e => decide (e.1 ∈ src_ids) && decide (e.2 ∈ dst_ids)) := by
    simp [np_isin, List.map_map, List.zipWith_map_left, List.zipWith_map_right,
      List.zipWith_same, Function.comp]
  show applyMask chunk (List.zipWith and (np_isin (chunk.map Prod.fst) src_ids false)
      (np_isin (chunk.map Prod.snd) dst_ids false)) = _
  rw [hmask, applyMask_map_pred]

/-- The rows of the original edge population kept for one (src, dst) pair:
the per-window kept rows of the chunk loop of `_copy_edge_attributes`,
concatenated in window order. -/
def copied_edges (edges : List (Int × Int)) (src_ids dst_ids : List Int)
    (C : Nat) : List (Int × Int) :=
  chunkApply (fun w => _copy_chunk w src_ids dst_ids) C edges

theorem copied_edges_eq_filter (edges : List (Int × Int))
    (src_ids dst_ids : List Int) (C : Nat) (hC : 1 ≤ C) :
    copied_edges edges src_ids dst_ids C =
      edges.filter (fun e => decide (e.1 ∈ src_ids) && decide (e.2 ∈ dst_ids)) := by
  rw [copied_edges, chunkApply_eq_of_append _ ?_ C hC, copy_chunk_eq_filter]
  intro a b
  simp [copy_chunk_eq_filter, List.filter_append]

/-- Whole-array count of the edges of the input falling in one (src, dst)
pair; by `copied_edges_eq_filter` this is the edge count each pair file gets,
independently of the chunk size. -/
def pairEdgeCount (edges : List (Int × Int)) (src_ids dst_ids : List Int) : Nat :=
  (edges.filter (fun e => decide (e.1 ∈ src_ids) && decide (e.2 ∈ dst_ids))).length

/-- Record of one per-pair edge file left on disk by `_write_edges`. -/
structure EdgeFileRecord where
  name : String
  edge_count : Nat
  indexed : Bool
deriving DecidableEq

/-- Loop body of `_write_edges` for one ordered (src, dst) population pair:
copy the pair's edges to a fresh file, then either index it (keeping it on
disk and adding its count to `written_edges`) or unlink it when empty. -/
def _write_edges_pair_step (edges : List (Int × Int)) (C : Nat)
    (acc : List EdgeFileRecord × Nat)
    (pair : (String × List Int) × (String × List Int)) :
    List EdgeFileRecord × Nat :=
  let edge_pop_name := _get_population_name pair.1.1 pair.2.1
  let edge_count := (copied_edges edges pair.1.2 pair.2.2 C).length
  if 0 < edge_count then
    (acc.1 ++ [⟨edge_pop_name, edge_count, true⟩], acc.2 + edge_count)
  else
    (acc.1, acc.2)

/-- Models `itertools.product(id_mapping, id_mapping)` over the dict entries,
in insertion order. -/
def allPairs {α : Type} (l : List α) : List (α × α) :=
  l.flatMap (fun a => l.map (fun b => (a, b)))

/-- Models `_write_edges(output, edges_path, id_mapping, h5_read_chunk_size,
expect_to_use_all_edges)`: the per-pair edge files left on disk, and the
outcome of the final `_check_all_edges_used` consistency check
(`Except.error` models the RuntimeError). -/
def _write_edges (edges : List (Int × Int))
    (id_mapping : List (String × List Int)) (C : Nat)
    (expect_to_use_all_edges : Bool) :
    List EdgeFileRecord × Except String Unit :=
  let res := (allPairs id_mapping).foldl (_write_edges_pair_step edges C) ([], 0)
  (res.1,
    if expect_to_use_all_edges then
      if edges.length ≠ res.2 then Except.error ("Written edges mismatch")
      else Except.ok ()
    else Except.ok ())

/-- The files `_write_edges` leaves on disk: one indexed record per ordered
pair with a nonzero edge count, in pair order. -/
def keptEdgeFiles (edges : List (Int × Int)) (C : Nat)
    (pairs : List ((String × List Int) × (String × List Int))) :
    List EdgeFileRecord :=
  pairs.filterMap (fun pair =>
    let c := (copied_edges edges pair.1.2 pair.2.2 C).length
    if 0 < c then some ⟨_get_population_name pair.1.1 pair.2.1, c, true⟩
    else none)

theorem write_edges_foldl_spec (edges : List (Int × Int)) (C : Nat)
    (pairs : List ((String × List Int) × (String × List Int)))
    (fs : List EdgeFileRecord) (w : Nat) :
    pairs.foldl (_write_edges_pair_step edges C) (fs, w) =
      (fs ++ keptEdgeFiles edges C pairs,
       w + (pairs.map
          (fun pair => (copied_edges edges pair.1.2 pair.2.2 C).length)).sum) := by
  induction pairs generalizing fs w with
  | nil => simp [keptEdgeFiles]
  | cons p ps ih =>
    simp only [List.foldl_cons, keptEdgeFiles, List.filterMap_cons, List.map_cons,
      List.sum_cons]
    by_cases h : 0 < (copied_edges edges p.1.2 p.2.2 C).length
    · simp only [_write_edges_pair_step, if_pos h]
      rw [ih]
      simp only [keptEdgeFiles, if_pos h, List.append_assoc, List.singleton_append]
      refine congrArg (Prod.mk _) ?_
      omega
    · simp only [_write_edges_pair_step, if_neg h]
      rw [ih]
      have h0 : (copied_edges edges p.1.2 p.2.2 C).length = 0 := by omega
      simp [keptEdgeFiles, h0]

/-- C3: with `expect_to_use_all_edges = true`, if the sum of per-pair edge
counts over all ordered (src, dst) population pairs differs from the input
edge count, `_write_edges` ends in the consistency error (RuntimeError); the
check runs only after every pair has been written, so the files on disk are
the same as in a run without the check; with the flag false no count check is
performed. -/
theorem write_edges_consistency_spec (edges : List (Int × Int))
    (id_mapping : List (String × List Int)) (C : Nat) (hC : 1 ≤ C) :
    (((allPairs id_mapping).map
        (fun pair => pairEdgeCount edges pair.1.2 pair.2.2)).sum ≠ edges.length →
      (_write_edges edges id_mapping C true).2 =
        Except.error ("Written edges mismatch")) ∧
    (((allPairs id_mapping).map
        (fun pair => pairEdgeCount edges pair.1.2 pair.2.2)).sum = edges.length →
      (_write_edges edges id_mapping C true).2 = Except.ok ()) ∧
    (_write_edges edges id_mapping C true).1 =
      (_write_edges edges id_mapping C false).1 ∧
    (_write_edges edges id_mapping C false).2 = Except.ok () := by
  have hcount : ∀ pair : (String × List Int) × (String × List Int),
      (copied_edges edges pair.1.2 pair.2.2 C).length =
        pairEdgeCount edges pair.1.2 pair.2.2 := by
    intro pair
    rw [copied_edges_eq_filter edges pair.1.2 pair.2.2 C hC]
    rfl
  have hsum : ((allPairs id_mapping).map
      (fun pair => (copied_edges edges pair.1.2 pair.2.2 C).length)).sum =
      ((allPairs id_mapping).map
      (fun pair => pairEdgeCount edges pair.1.2 pair.2.2)).sum := by
    refine congrArg List.sum ?_
    exact List.map_congr_left (fun pair _ => hcount pair)
  refine ⟨?_, ?_, ?_, ?_⟩
  · intro hne
    simp only [_write_edges, write_edges_foldl_spec, Nat.zero_add, hsum]
    rw [if_pos trivial, if_pos (by omega)]
  · intro heq
    simp only [_write_edges, write_edges_foldl_spec, Nat.zero_add, hsum]
    rw [if_pos trivial, if_neg (by omega)]
  · simp only [_write_edges, write_edges_foldl_spec]
  · simp only [_write_edges]
    rw [if_neg (by simp)]

theorem write_edges_consistency_spec_witness :
    (1 ≤ 1 ∧
      ((allPairs [("A", [(0 : Int), 1])]).map
        (fun pair => pairEdgeCount [((0 : Int), (1 : Int))] pair.1.2 pair.2.2)).sum =
        ([((0 : Int), (1 : Int))]).length) ∧
    (_write_edges [((0 : Int), (1 : Int))] [("A", [(0 : Int), 1])] 1 true).2 =
      Except.ok () :=
  ⟨⟨by decide, by decide⟩,
   (write_edges_consistency_spec [((0 : Int), (1 : Int))] [("A", [(0 : Int), 1])] 1
     (by decide)).2.1 (by decide)⟩

/-- Sentinel marking that `_write_subcircuit_edges` removed the edge file. -/
def DELETED_EMPTY_EDGES_FILE : String := "DELETED_EMPTY_EDGES_FILE"

/-- Result of `_write_subcircuit_edges`: the populations (name, edge count)
in the output h5 file (`none` when the file was unlinked), whether the two
directional indices were written for the destination population, and the
returned path. -/
structure SubcircuitEdgesResult where
  edge_file : Option (List (String × Nat))
  indexed : Bool
  returned_path : String
deriving DecidableEq

/-- Models `_write_subcircuit_edges`: `_copy_edge_attributes` appends the new
population to the output file, opened in append mode with `existing_pops`
already present; a zero-count population is deleted from the file again, and
the file is unlinked exactly when it then holds no population (returning the
sentinel); a nonzero population gets its indices written. -/
def _write_subcircuit_edges (existing_pops : List (String × Nat))
    (edges : List (Int × Int)) (src_ids dst_ids : List Int) (C : Nat)
    (dst_edge_pop_name output_path : String) : SubcircuitEdgesResult :=
  let edge_count := (copied_edges edges src_ids dst_ids C).length
  if 0 < edge_count then
    { edge_file := some (existing_pops ++ [(dst_edge_pop_name, edge_count)])
      indexed := true
      returned_path := output_path }
  else if existing_pops.isEmpty then
    { edge_file := none, indexed := false,
      returned_path := DELETED_EMPTY_EDGES_FILE }
  else
    { edge_file := some existing_pops, indexed := false,
      returned_path := output_path }

/-- C4: a zero-count pair is removed rather than indexed. In `_write_edges`
the files left on disk are exactly the indexed records of the pairs with a
nonzero edge count (an empty pair file is unlinked without indices); in
`_write_subcircuit_edges` the empty population is deleted from the output
file, and the file itself is unlinked, returning the
`DELETED_EMPTY_EDGES_FILE` sentinel, exactly when it then contains no
population; a nonzero count gets the directional indices written. -/
theorem empty_edge_outputs_removed_spec (edges : List (Int × Int))
    (id_mapping : List (String × List Int)) (C : Nat) (hC : 1 ≤ C)
    (expect : Bool) (existing_pops : List (String × Nat))
    (src_ids dst_ids : List Int) (pop_name output_path : String) :
    ((_write_edges edges id_mapping C expect).1 =
        keptEdgeFiles edges C (allPairs id_mapping) ∧
      (∀ f ∈ (_write_edges edges id_mapping C expect).1,
        0 < f.edge_count ∧ f.indexed = true)) ∧
    ((0 < pairEdgeCount edges src_ids dst_ids →
       (_write_subcircuit_edges existing_pops edges src_ids dst_ids C pop_name
           output_path).indexed = true ∧
       (_write_subcircuit_edges existing_pops edges src_ids dst_ids C pop_name
           output_path).edge_file =
         some (existing_pops ++ [(pop_name, pairEdgeCount edges src_ids dst_ids)]) ∧
       (_write_subcircuit_edges existing_pops edges src_ids dst_ids C pop_name
           output_path).returned_path = output_path) ∧
     (pairEdgeCount edges src_ids dst_ids = 0 →
       (_write_subcircuit_edges existing_pops edges src_ids dst_ids C pop_name
           output_path).indexed = false ∧
       (existing_pops = [] →
         (_write_subcircuit_edges existing_pops edges src_ids dst_ids C pop_name
             output_path).edge_file = none ∧
         (_write_subcircuit_edges existing_pops edges src_ids dst_ids C pop_name
             output_path).returned_path = DELETED_EMPTY_EDGES_FILE) ∧
       (existing_pops ≠ [] →
         (_write_subcircuit_edges existing_pops edges src_ids dst_ids C pop_name
             output_path).edge_file = some existing_pops ∧
         (_write_subcircuit_edges existing_pops edges src_ids dst_ids C pop_name
             output_path).returned_path = output_path))) := by
  have hcount : (copied_edges edges src_ids dst_ids C).length =
      pairEdgeCount edges src_ids dst_ids := by
    rw [copied_edges_eq_filter edges src_ids dst_ids C hC]
    rfl
  refine ⟨⟨?_, ?_⟩, ?_, ?_⟩
  · simp only [_write_edges, write_edges_foldl_spec, List.nil_append]
  · intro f hf
    simp only [_write_edges, write_edges_foldl_spec, List.nil_append] at hf
    obtain ⟨pair, _, hpair⟩ := List.mem_filterMap.mp hf
    by_cases h : 0 < (copied_edges edges pair.1.2 pair.2.2 C).length
    · rw [if_pos h] at hpair
      cases hpair
      exact ⟨h, rfl⟩
    · rw [if_neg h] at hpair
      cases hpair
  · intro hpos
    have h3 : _write_subcircuit_edges existing_pops edges src_ids dst_ids C
        pop_name output_path =
        { edge_file :=
            some (existing_pops ++ [(pop_name, pairEdgeCount edges src_ids dst_ids)])
          indexed := true
          returned_path := output_path } := by
      simp only [_write_subcircuit_edges, hcount]
      rw [if_pos hpos]
    rw [h3]
    exact ⟨rfl, rfl, rfl⟩
  · intro hzero
    have h : ¬ 0 < (copied_edges edges src_ids dst_ids C).length := by omega
    refine ⟨?_, ?_, ?_⟩
    · by_cases he : existing_pops.isEmpty <;>
        simp [_write_subcircuit_edges, if_neg h, he]
    · intro hnil
      subst hnil
      simp [_write_subcircuit_edges, if_neg h]
    · intro hne
      have he : ¬ existing_pops.isEmpty := by
        simpa [List.isEmpty_iff] using hne
      simp [_write_subcircuit_edges, if_neg h, he]

theorem empty_edge_outputs_removed_spec_witness :
    (1 ≤ 1 ∧ pairEdgeCount ([] : List (Int × Int)) [0] [0] = 0 ∧
      ([] : List (String × Nat)) = []) ∧
    (_write_subcircuit_edges [] ([] : List (Int × Int)) [0] [0] 1 "A" "out.h5"
        ).edge_file = none ∧
    (_write_subcircuit_edges [] ([] : List (Int × Int)) [0] [0] 1 "A" "out.h5"
        ).returned_path = DELETED_EMPTY_EDGES_FILE :=
  ⟨⟨by decide, by decide, rfl⟩,
   (((empty_edge_outputs_removed_spec ([] : List (Int × Int)) [] 1 (by decide)
       true [] [0] [0] "A" "out.h5").2.2 (by decide)).2.1 rfl)⟩

/-- Models `np.unique` over a 1-D integer array: the distinct values in
ascending order. -/
def np_unique (l : List Int) : List Int :=
  l.dedup.mergeSort (fun a b => decide (a ≤ b))

theorem np_unique_nodup (l : List Int) : (np_unique l).Nodup :=
  (List.mergeSort_perm l.dedup _).symm.nodup (List.nodup_dedup l)

theorem mem_np_unique {a : Int} {l : List Int} : a ∈ np_unique l ↔ a ∈ l := by
  rw [np_unique, (List.mergeSort_perm l.dedup _).mem_iff, List.mem_dedup]

theorem np_unique_ne_nil {l : List Int} (h : l ≠ []) : np_unique l ≠ [] := by
  intro hn
  cases l with
  | nil => exact h rfl
  | cons x xs =>
    have hx : x ∈ np_unique (x :: xs) := mem_np_unique.mpr (List.mem_cons_self x xs)
    rw [hn] at hx
    exact (List.not_mem_nil x) hx

theorem np_isin_invert_eq_map (l t : List Int) :
    np_isin l t true = l.map (fun x => !(decide (x ∈ t))) := by
  simp [np_isin, Bool.xor_true]

theorem applyMask_not_mem (l t : List Int) :
    applyMask l (np_isin l t true) = l.filter (fun x => !(decide (x ∈ t))) := by
  rw [np_isin_invert_eq_map, applyMask_map_pred]

theorem foldl_max_range (k : Nat) (hk : 1 ≤ k) :
    (List.range k).foldl max 0 = k - 1 := by
  induction k with
  | zero => omega
  | succ n ih =>
    rw [List.range_succ, List.foldl_append]
    rcases Nat.eq_zero_or_pos n with h0 | hpos
    · subst h0
      rfl
    · rw [ih hpos]
      simp only [List.foldl_cons, List.foldl_nil]
      omega

/-- One chunk step of `_get_subcircuit_external_ids`: compute the window's
combined membership mask; if any row survives, take the distinct surviving
source ids in ascending order (`np.unique`); on the first hit create the frame
with new ids `0..n-1`; afterwards append only the ids not yet present, with
new ids continuing from `ret.new_id.max() + 1`, in order. -/
def _external_ids_step (wanted_src_ids wanted_dst_ids : List Int)
    (ret : Option (List (Int × Nat))) (chunk : List (Int × Int)) :
    Option (List (Int × Nat)) :=
  let kept := _copy_chunk chunk wanted_src_ids wanted_dst_ids
  if kept.isEmpty then ret
  else
    let needed := np_unique (kept.map Prod.fst)
    match ret with
    | none => some (needed.zip (List.range needed.length))
    | some r =>
      let mm := np_isin needed (r.map Prod.fst) true
      let needed2 := applyMask needed mm
      if needed2.isEmpty then some r
      else
        let start_id := (r.map Prod.snd).foldl max 0 + 1
        some (r ++ needed2.zip (List.range' start_id needed2.length))

/-- Models `_get_subcircuit_external_ids(all_sgids, all_tgids, wanted_src_ids,
wanted_dst_ids)`, the source/target id columns fused into one row list: fold
the chunk step over the fixed-size read windows (`ret` starts as None and
becomes an id-mapping frame on the first matching window), return the empty
frame if no window matched, else the frame sorted by old id (`sort_index`). -/
def _get_subcircuit_external_ids (all_edges : List (Int × Int))
    (wanted_src_ids wanted_dst_ids : List Int) (C : Nat) : List (Int × Nat) :=
  let chunks := (_create_chunked_slices all_edges.length C).map
    (fun s => (all_edges.drop s).take C)
  match chunks.foldl (_external_ids_step wanted_src_ids wanted_dst_ids) none with
  | none => []
  | some r => r.mergeSort (fun a b => decide (a.1 ≤ b.1))

theorem external_ids_step_none_cases (ws wd : List Int) (chunk : List (Int × Int)) :
    _external_ids_step ws wd none chunk = none ∨
    ∃ needed, _external_ids_step ws wd none chunk =
        some (needed.zip (List.range needed.length)) ∧
      needed.Nodup ∧ needed ≠ [] := by
  by_cases hk : (_copy_chunk chunk ws wd).isEmpty
  · left
    simp [_external_ids_step, hk]
  · right
    refine ⟨np_unique ((_copy_chunk chunk ws wd).map Prod.fst), ?_, np_unique_nodup _, ?_⟩
    · simp [_external_ids_step, hk]
    · refine np_unique_ne_nil ?_
      intro hmap
      rw [List.map_eq_nil_iff] at hmap
      rw [hmap] at hk
      exact hk rfl

theorem external_ids_step_some_extend (ws wd : List Int) (r : List (Int × Nat))
    (chunk : List (Int × Int)) (hsnd : r.map Prod.snd = List.range r.length)
    (hne : r ≠ []) :
    ∃ appended, _external_ids_step ws wd (some r) chunk = some (r ++ appended) ∧
      appended.map Prod.snd = List.range' r.length appended.length ∧
      (∀ a ∈ appended.map Prod.fst, a ∉ r.map Prod.fst) ∧
      (appended.map Prod.fst).Nodup := by
  have hrlen : 1 ≤ r.length := by
    cases r with
    | nil => exact absurd rfl hne
    | cons a as => simp
  by_cases hk : (_copy_chunk chunk ws wd).isEmpty
  · refine ⟨[], ?_, by simp, by simp, by simp⟩
    simp [_external_ids_step, hk]
  · by_cases h2 : (applyMask (np_unique ((_copy_chunk chunk ws wd).map Prod.fst))
        (np_isin (np_unique ((_copy_chunk chunk ws wd).map Prod.fst))
          (r.map Prod.fst) true)).isEmpty
    · refine ⟨[], ?_, by simp, by simp, by simp⟩
      simp only [_external_ids_step, hk]
      simp only [Bool.false_eq_true, if_false]
      rw [if_pos h2, List.append_nil]
    · set needed2 := applyMask (np_unique ((_copy_chunk chunk ws wd).map Prod.fst))
        (np_isin (np_unique ((_copy_chunk chunk ws wd).map Prod.fst))
          (r.map Prod.fst) true) with hneed2
      have hstart : (r.map Prod.snd).foldl max 0 + 1 = r.length := by
        rw [hsnd, foldl_max_range r.length hrlen]
        omega
      refine ⟨needed2.zip (List.range' r.length needed2.length), ?_, ?_, ?_, ?_⟩
      · simp only [_external_ids_step, hk]
        simp only [Bool.false_eq_true, if_false]
        rw [if_neg h2, hstart]
      · rw [List.map_snd_zip _ _ (by rw [List.length_range'])]
        have hlen : (needed2.zip (List.range' r.length needed2.length)).length =
            needed2.length := by
          simp [List.length_zip, List.length_range']
        rw [hlen]
      · intro a ha
        rw [List.map_fst_zip _ _ (by rw [List.length_range'])] at ha
        rw [hneed2, applyMask_not_mem] at ha
        have := (List.mem_filter.mp ha).2
        simpa using this
      · rw [List.map_fst_zip _ _ (by rw [List.length_range'])]
        rw [hneed2, applyMask_not_mem]
        exact (np_unique_nodup _).filter _

theorem external_ids_fold_inv (ws wd : List Int)
    (chunks : List (List (Int × Int))) :
    ∀ acc : Option (List (Int × Nat)),
      (acc = none ∨ ∃ r, acc = some r ∧ r.map Prod.snd = List.range r.length ∧
        (r.map Prod.fst).Nodup ∧ r ≠ []) →
      (chunks.foldl (_external_ids_step ws wd) acc = none ∨
        ∃ r, chunks.foldl (_external_ids_step ws wd) acc = some r ∧
          r.map Prod.snd = List.range r.length ∧ (r.map Prod.fst).Nodup ∧ r ≠ []) := by
  induction chunks with
  | nil => intro acc hacc; exact hacc
  | cons ch chs ih =>
    intro acc hacc
    rw [List.foldl_cons]
    refine ih _ ?_
    rcases hacc with hnone | ⟨r, hr, hsnd, hfst, hne⟩
    · subst hnone
      rcases external_ids_step_none_cases ws wd ch with h | ⟨needed, heq, hnd, hneed_ne⟩
      · left; exact h
      · right
        refine ⟨needed.zip (List.range needed.length), heq, ?_, ?_, ?_⟩
        · rw [List.map_snd_zip _ _ (by simp)]
          have hlen : (needed.zip (List.range needed.length)).length =
              needed.length := by simp [List.length_zip]
          rw [hlen]
        · rw [List.map_fst_zip _ _ (by simp)]
          exact hnd
        · intro hz
          have := congrArg List.length hz
          simp [List.length_zip] at this
          exact hneed_ne this
    · subst hr
      obtain ⟨appended, heq, happ_snd, happ_disj, happ_nd⟩ :=
        external_ids_step_some_extend ws wd r ch hsnd hne
      right
      refine ⟨r ++ appended, heq, ?_, ?_, ?_⟩
      · rw [List.map_append, hsnd, happ_snd, List.length_append]
        rw [List.range_eq_range', List.range_eq_range']
        have h := List.range'_append 0 r.length appended.length 1
        simp only [Nat.zero_add, Nat.one_mul] at h
        rw [h]
        ring_nf
      · rw [List.map_append]
        refine (List.Nodup.append hfst happ_nd ?_)
        rw [List.disjoint_left]
        intro a har haap
        exact happ_disj a haap har
      · intro hz
        rcases List.append_eq_nil.mp hz with ⟨hr0, _⟩
        exact hne hr0

/-- C5: `_get_subcircuit_external_ids` builds a mapping whose new ids are a
permutation of `0..k-1` (so no new id is ever assigned twice), whose old ids
are pairwise distinct, and which is empty when no connection matches; and a
chunk step on an already-built mapping only appends: every existing
(old, new) entry is kept unchanged, the appended old ids are not already
present, and the appended entries get the consecutive new ids
`max(existing)+1, ...` (equal to continuing from the current size) in order. -/
theorem external_ids_spec :
    (∀ (all_edges : List (Int × Int)) (ws wd : List Int) (C : Nat), 1 ≤ C →
      ((_get_subcircuit_external_ids all_edges ws wd C).map Prod.snd).Perm
        (List.range (_get_subcircuit_external_ids all_edges ws wd C).length) ∧
      ((_get_subcircuit_external_ids all_edges ws wd C).map Prod.fst).Nodup ∧
      (all_edges.filter (fun e => decide (e.1 ∈ ws) && decide (e.2 ∈ wd)) = [] →
        _get_subcircuit_external_ids all_edges ws wd C = [])) ∧
    (∀ (ws wd : List Int) (r : List (Int × Nat)) (chunk : List (Int × Int)),
      r.map Prod.snd = List.range r.length → r ≠ [] →
      ∃ appended,
        _external_ids_step ws wd (some r) chunk = some (r ++ appended) ∧
        appended.map Prod.snd = List.range' r.length appended.length ∧
        ∀ a ∈ appended.map Prod.fst, a ∉ r.map Prod.fst) := by
  constructor
  · intro all_edges ws wd C hC
    have hres := external_ids_fold_inv ws wd
      ((_create_chunked_slices all_edges.length C).map
        (fun s => (all_edges.drop s).take C)) none (Or.inl rfl)
    refine ⟨?_, ?_, ?_⟩
    · rcases hres with hnone | ⟨r, hr, hsnd, _, _⟩
      · simp [_get_subcircuit_external_ids, hnone]
      · simp only [_get_subcircuit_external_ids, hr]
        have hperm : (r.mergeSort (fun a b => decide (a.1 ≤ b.1))).Perm r :=
          List.mergeSort_perm r _
        have h1 := hperm.map Prod.snd
        rw [hsnd] at h1
        rw [hperm.length_eq]
        exact h1
    · rcases hres with hnone | ⟨r, hr, _, hfst, _⟩
      · simp [_get_subcircuit_external_ids, hnone]
      · simp only [_get_subcircuit_external_ids, hr]
        exact ((List.mergeSort_perm r _).map Prod.fst).symm.nodup hfst
    · intro hfilter
      have hkeep : ∀ ch ∈ (_create_chunked_slices all_edges.length C).map
          (fun s => (all_edges.drop s).take C), _copy_chunk ch ws wd = [] := by
        intro ch hch
        rw [copy_chunk_eq_filter]
        rw [List.filter_eq_nil_iff] at hfilter ⊢
        intro a ha
        refine hfilter a ?_
        obtain ⟨s, _, hs⟩ := List.mem_map.mp hch
        rw [← hs] at ha
        exact List.drop_subset s all_edges (List.take_subset _ _ ha)
      have hfold : ∀ (chs : List (List (Int × Int))),
          (∀ ch ∈ chs, _copy_chunk ch ws wd = []) →
          ∀ acc, chs.foldl (_external_ids_step ws wd) acc = acc := by
        intro chs
        induction chs with
        | nil => intro _ acc; rfl
        | cons ch2 chs2 ih =>
          intro hall acc
          rw [List.foldl_cons]
          have hch2 : _copy_chunk ch2 ws wd = [] := hall ch2 (List.mem_cons_self _ _)
          have hstep : _external_ids_step ws wd acc ch2 = acc := by
            simp [_external_ids_step, hch2]
          rw [hstep]
          exact ih (fun c hc => hall c (List.mem_cons_of_mem _ hc)) acc
      simp [_get_subcircuit_external_ids,
        hfold _ hkeep none]
  · intro ws wd r chunk hsnd hne
    obtain ⟨appended, heq, happ_snd, happ_disj, _⟩ :=
      external_ids_step_some_extend ws wd r chunk hsnd hne
    exact ⟨appended, heq, happ_snd, happ_disj⟩

theorem external_ids_spec_witness :
    1 ≤ 1 ∧
      ((_get_subcircuit_external_ids [((1 : Int), (2 : Int))] [1] [2] 1).map
          Prod.fst).Nodup :=
  ⟨by decide,
   (external_ids_spec.1 [((1 : Int), (2 : Int))] [1] [2] 1 (by decide)).2.1⟩

/-- An item of an h5 group: a dataset with a dtype, or a nested group. -/
inductive H5Item where
  | dataset (dtype : String)
  | group (children : List (String × H5Item))

/-- Models `_get_unique_population(parent)`: the unique population name, or
the ValueError raised when the container does not hold exactly one
population (zero, or more than one). -/
def _get_unique_population (population_names : List String) :
    Except String String :=
  match population_names with
  | [name] => Except.ok name
  | _ => Except.error ("Single population is supported only")

/-- Body of the `_init_edge_group` loop for one (name, attr) item of the
original group: a dataset yields an empty appendable dataset of the same
dtype; a group named dynamics_params is mirrored when all its members are
datasets (the assert); any other group raises ValueError. -/
def _init_edge_group_item (name : String) (attr : H5Item) :
    Except String (String × H5Item) :=
  match attr with
  | H5Item.dataset dtype => Except.ok (name, H5Item.dataset dtype)
  | H5Item.group children =>
    if name = "dynamics_params" then
      if children.all (fun c => match c.2 with
          | H5Item.dataset _ => true
          | H5Item.group _ => false) then
        Except.ok (name, H5Item.group children)
      else Except.error ("dynamics_params has an h5 subgroup")
    else Except.error ("Only dynamics_params group is expected")

def _init_edge_group_step (acc : List (String × H5Item)) (p : String × H5Item) :
    Except String (List (String × H5Item)) := do
  let item ← _init_edge_group_item p.1 p.2
  pure (acc ++ [item])

/-- Models `_init_edge_group(orig_group, new_group)`: build the empty skeleton
of the new group item by item, failing on the first offending item. -/
def _init_edge_group (orig_group : List (String × H5Item)) :
    Except String (List (String × H5Item)) :=
  orig_group.foldlM _init_edge_group_step []

/-- Models `_copy_edge_attributes` at the granularity C6 needs: the new group
skeleton is initialized before the chunk loop runs, so a structural error
aborts the copy before any row is appended; on success the chunk loop
produces the kept rows. -/
def _copy_edge_attributes (orig_group : List (String × H5Item))
    (edges : List (Int × Int)) (src_ids dst_ids : List Int) (C : Nat) :
    Except String (List (String × H5Item) × List (Int × Int)) := do
  let new_group ← _init_edge_group orig_group
  pure (new_group, copied_edges edges src_ids dst_ids C)

theorem init_edge_group_foldl_error (g : List (String × H5Item))
    (hbad : ∃ name children, (name, H5Item.group children) ∈ g ∧
      name ≠ "dynamics_params") :
    ∀ acc, ∃ msg,
      g.foldlM _init_edge_group_step acc = Except.error msg := by
  induction g with
  | nil =>
    obtain ⟨name, children, hmem, _⟩ := hbad
    exact absurd hmem (List.not_mem_nil _)
  | cons p ps ih =>
    intro acc
    rw [List.foldlM_cons]
    rcases hitem : _init_edge_group_item p.1 p.2 with msg | item
    · refine ⟨msg, ?_⟩
      simp only [_init_edge_group_step, hitem]
      rfl
    · obtain ⟨name, children, hmem, hne⟩ := hbad
      rcases List.mem_cons.mp hmem with heqp | hmem2
      · exfalso
        rw [← heqp] at hitem
        simp [_init_edge_group_item, hne] at hitem
      · obtain ⟨msg, hmsg⟩ := ih ⟨name, children, hmem2, hne⟩ (acc ++ [item])
        refine ⟨msg, ?_⟩
        simp only [_init_edge_group_step, hitem]
        exact hmsg

/-- C6: a container that does not hold exactly one population is rejected by
`_get_unique_population` with a structural error (and an ok result really
means the container held exactly that one population); an edge group holding
a subgroup named anything but dynamics_params makes `_init_edge_group` raise
a structural error; and `_copy_edge_attributes` runs this check before its
copy loop, so on a structural error no row is copied. -/
theorem structural_errors_spec :
    (∀ population_names : List String, population_names.length ≠ 1 →
      ∃ msg, _get_unique_population population_names = Except.error msg) ∧
    (∀ population_names name,
      _get_unique_population population_names = Except.ok name →
      population_names = [name]) ∧
    (∀ orig_group : List (String × H5Item),
      (∃ name children, (name, H5Item.group children) ∈ orig_group ∧
        name ≠ "dynamics_params") →
      ∃ msg, _init_edge_group orig_group = Except.error msg) ∧
    (∀ (orig_group : List (String × H5Item)) (edges : List (Int × Int))
        (src_ids dst_ids : List Int) (C : Nat) (msg : String),
      _init_edge_group orig_group = Except.error msg →
      _copy_edge_attributes orig_group edges src_ids dst_ids C =
        Except.error msg) := by
  refine ⟨?_, ?_, ?_, ?_⟩
  · intro population_names hlen
    match population_names with
    | [] => exact ⟨"Single population is supported only", rfl⟩
    | [name] => simp at hlen
    | a :: b :: rest => exact ⟨"Single population is supported only", rfl⟩
  · intro population_names name hok
    match population_names, hok with
    | [n], hok =>
      simp only [_get_unique_population, Except.ok.injEq] at hok
      rw [hok]
  · intro orig_group hbad
    exact init_edge_group_foldl_error orig_group hbad []
  · intro orig_group edges src_ids dst_ids C msg herr
    simp [_copy_edge_attributes, herr]

theorem structural_errors_spec_witness :
    (([] : List String).length ≠ 1 ∧
      ∃ msg, _get_unique_population [] = Except.error msg) ∧
    ∃ msg2, _init_edge_group [("afferent_section_id", H5Item.dataset "f8"),
        ("bad_subgroup", H5Item.group [])] = Except.error msg2 :=
  ⟨⟨by decide, structural_errors_spec.1 [] (by decide)⟩,
   structural_errors_spec.2.2.1
     [("afferent_section_id", H5Item.dataset "f8"),
      ("bad_subgroup", H5Item.group [])]
     ⟨"bad_subgroup", [], by simp, by decide⟩⟩

/-- A node-set rule as `_update_node_sets` distinguishes them: either a rule
without a node_id key (or not a dict at all), passed through untouched
(`payload` stands for its uninterpreted content), or a rule carrying a
node_id list and optionally a population key. -/
inductive NodeSetRule where
  | passthrough (payload : Nat)
  | nodeIds (population : Option String) (node_id : List Int)
deriving DecidableEq

/-- Dict lookup `id_mapping[population]`, with `none` modelling
`population not in id_mapping`. -/
def lookup_population (id_mapping : List (String × List (Int × Nat)))
    (population : String) : Option (List (Int × Nat)) :=
  (id_mapping.find? (fun q => q.1 == population)).map (fun q => q.2)

/-- Models `mapping.loc[mapping.index.intersection(rule['node_id'])].new_id
.sort_values().to_list()`: the new ids of the mapping rows whose old id
occurs in the rule's list, sorted ascending. -/
def remap_node_ids (mapping : List (Int × Nat)) (node_id : List Int) :
    List Int :=
  ((mapping.filter (fun q => decide (q.1 ∈ node_id))).map
    (fun q => (q.2 : Int))).mergeSort (fun a b => decide (a ≤ b))

/-- Loop body of `_update_node_sets` for one named rule: a rule with node_id
but no population is dropped with a warning; one whose population is not in
the id mapping is dropped silently; one whose population is mapped is kept
with its node_id list remapped; anything else is copied unchanged. -/
def _update_node_sets_step (id_mapping : List (String × List (Int × Nat)))
    (acc : List (String × NodeSetRule) × List String)
    (p : String × NodeSetRule) :
    List (String × NodeSetRule) × List String :=
  match p.2 with
  | NodeSetRule.nodeIds none _ => (acc.1, acc.2 ++ [p.1])
  | NodeSetRule.nodeIds (some population) node_id =>
    match lookup_population id_mapping population with
    | none => acc
    | some mapping =>
      (acc.1 ++ [(p.1, NodeSetRule.nodeIds (some population)
          (remap_node_ids mapping node_id))], acc.2)
  | r => (acc.1 ++ [(p.1, r)], acc.2)

/-- Models `_update_node_sets(node_sets, id_mapping)`: the kept/updated rules
in input order, together with the rule names warned about
("No population key in nodeset ..., ignoring"). -/
def _update_node_sets (node_sets : List (String × NodeSetRule))
    (id_mapping : List (String × List (Int × Nat))) :
    List (String × NodeSetRule) × List String :=
  node_sets.foldl (_update_node_sets_step id_mapping) ([], [])

/-- What becomes of one rule: `none` when it is dropped. -/
def update_rule (id_mapping : List (String × List (Int × Nat)))
    (p : String × NodeSetRule) : Option (String × NodeSetRule) :=
  match p.2 with
  | NodeSetRule.nodeIds none _ => none
  | NodeSetRule.nodeIds (some population) node_id =>
    match lookup_population id_mapping population with
    | none => none
    | some mapping =>
      some (p.1, NodeSetRule.nodeIds (some population)
        (remap_node_ids mapping node_id))
  | r => some (p.1, r)

/-- The warning one rule produces, if any. -/
def rule_warning (p : String × NodeSetRule) : Option String :=
  match p.2 with
  | NodeSetRule.nodeIds none _ => some p.1
  | _ => none

theorem update_node_sets_eq (node_sets : List (String × NodeSetRule))
    (id_mapping : List (String × List (Int × Nat))) :
    _update_node_sets node_sets id_mapping =
      (node_sets.filterMap (update_rule id_mapping),
       node_sets.filterMap rule_warning) := by
  suffices h : ∀ (l : List (String × NodeSetRule))
      (acc : List (String × NodeSetRule) × List String),
      l.foldl (_update_node_sets_step id_mapping) acc =
        (acc.1 ++ l.filterMap (update_rule id_mapping),
         acc.2 ++ l.filterMap rule_warning) by
    simpa [_update_node_sets] using h node_sets ([], [])
  intro l
  induction l with
  | nil =>
    intro acc
    simp
  | cons p ps ih =>
    intro acc
    rw [List.foldl_cons, ih]
    rcases p with ⟨name, rule⟩
    cases rule with
    | passthrough payload =>
      simp [_update_node_sets_step, update_rule, rule_warning,
        List.filterMap_cons]
    | nodeIds population node_id =>
      cases population with
      | none =>
        simp [_update_node_sets_step, update_rule, rule_warning,
          List.filterMap_cons]
      | some popname =>
        cases hl : lookup_population id_mapping popname with
        | none =>
          simp [_update_node_sets_step, update_rule, rule_warning,
            List.filterMap_cons, hl]
        | some mapping =>
          simp [_update_node_sets_step, update_rule, rule_warning,
            List.filterMap_cons, hl]

theorem assoc_nodup_eq {α β : Type} {l : List (α × β)}
    (hnd : (l.map Prod.fst).Nodup) {p q : α × β}
    (hp : p ∈ l) (hq : q ∈ l) (hfst : p.1 = q.1) : p = q := by
  obtain ⟨i, hi, hpi⟩ := List.mem_iff_getElem.mp hp
  obtain ⟨j, hj, hqj⟩ := List.mem_iff_getElem.mp hq
  have hi2 : i < (l.map Prod.fst).length := by simpa using hi
  have hj2 : j < (l.map Prod.fst).length := by simpa using hj
  have hmi : (l.map Prod.fst)[i] = p.1 := by
    rw [List.getElem_map, hpi]
  have hmj : (l.map Prod.fst)[j] = q.1 := by
    rw [List.getElem_map, hqj]
  have hij : i = j := hnd.getElem_inj_iff.mp (by rw [hmi, hmj, hfst])
  subst hij
  rw [← hpi, ← hqj]

/-- C7 counterexample: a rule carrying node_id whose population "X" is absent
from the id mapping is dropped from the output, but the warning list stays
empty — the code emits no warning in this case (the warning at the top of the
loop fires only for a missing population key), contradicting the claim that
the caller is notified with a warning. -/
theorem update_node_sets_missing_population_counterexample :
    _update_node_sets [("s", NodeSetRule.nodeIds (some "X") [0])] [] =
      ([], []) := rfl

/-- C7 (amended): a node-set rule carrying node_id whose population is absent
from the current split's id mapping is dropped from the output silently — no
warning names it (the warning is emitted only for rules lacking a population
key) — while execution continues: rules whose population is present are kept
with their node_id list remapped through the mapping. -/
theorem update_node_sets_missing_population_spec
    (node_sets : List (String × NodeSetRule))
    (id_mapping : List (String × List (Int × Nat)))
    (name : String) (population : String) (node_id : List Int)
    (hmem : (name, NodeSetRule.nodeIds (some population) node_id) ∈ node_sets)
    (habs : lookup_population id_mapping population = none)
    (hnd : (node_sets.map Prod.fst).Nodup) :
    (∀ r, (name, r) ∉ (_update_node_sets node_sets id_mapping).1) ∧
    name ∉ (_update_node_sets node_sets id_mapping).2 ∧
    (∀ (name2 population2 : String) (node_id2 : List Int)
        (mapping2 : List (Int × Nat)),
      (name2, NodeSetRule.nodeIds (some population2) node_id2) ∈ node_sets →
      lookup_population id_mapping population2 = some mapping2 →
      (name2, NodeSetRule.nodeIds (some population2)
          (remap_node_ids mapping2 node_id2)) ∈
        (_update_node_sets node_sets id_mapping).1) := by
  rw [update_node_sets_eq]
  refine ⟨?_, ?_, ?_⟩
  · intro r hr
    obtain ⟨q, hq, hqr⟩ := List.mem_filterMap.mp hr
    have hq1 : q.1 = name := by
      rcases q with ⟨qn, qr⟩
      cases qr with
      | passthrough payload =>
        simp only [update_rule, Option.some.injEq] at hqr
        exact congrArg Prod.fst hqr
      | nodeIds population3 node_id3 =>
        cases population3 with
        | none => simp [update_rule] at hqr
        | some popname3 =>
          cases hl : lookup_population id_mapping popname3 with
          | none => simp [update_rule, hl] at hqr
          | some mapping3 =>
            simp only [update_rule, hl, Option.some.injEq] at hqr
            exact congrArg Prod.fst hqr
    have hqeq : q = (name, NodeSetRule.nodeIds (some population) node_id) :=
      assoc_nodup_eq hnd hq hmem hq1
    rw [hqeq] at hqr
    simp [update_rule, habs] at hqr
  · intro hw
    obtain ⟨q, hq, hqw⟩ := List.mem_filterMap.mp hw
    rcases q with ⟨qn, qr⟩
    cases qr with
    | passthrough payload => simp [rule_warning] at hqw
    | nodeIds population3 node_id3 =>
      cases population3 with
      | some popname3 => simp [rule_warning] at hqw
      | none =>
        simp only [rule_warning, Option.some.injEq] at hqw
        have hqeq : (qn, NodeSetRule.nodeIds none node_id3) =
            (name, NodeSetRule.nodeIds (some population) node_id) :=
          assoc_nodup_eq hnd hq hmem (by simpa using hqw)
        simp at hqeq
  · intro name2 population2 node_id2 mapping2 hmem2 hl2
    refine List.mem_filterMap.mpr
      ⟨(name2, NodeSetRule.nodeIds (some population2) node_id2), hmem2, ?_⟩
    simp [update_rule, hl2]

theorem update_node_sets_missing_population_spec_witness :
    ((("s", NodeSetRule.nodeIds (some "X") [0]) ∈
        [("s", NodeSetRule.nodeIds (some "X") [0]),
         ("t", NodeSetRule.nodeIds (some "A") [5])] ∧
      lookup_population [("A", [((5 : Int), 0)])] "X" = none) ∧
      (([("s", NodeSetRule.nodeIds (some "X") [(0 : Int)]),
         ("t", NodeSetRule.nodeIds (some "A") [5])].map Prod.fst).Nodup)) ∧
    "s" ∉ (_update_node_sets
        [("s", NodeSetRule.nodeIds (some "X") [0]),
         ("t", NodeSetRule.nodeIds (some "A") [5])]
        [("A", [((5 : Int), 0)])]).2 :=
  ⟨⟨⟨by decide, by decide⟩, by decide⟩,
   (update_node_sets_missing_population_spec
     [("s", NodeSetRule.nodeIds (some "X") [0]),
      ("t", NodeSetRule.nodeIds (some "A") [5])]
     [("A", [((5 : Int), 0)])] "s" "X" [0] (by decide) (by decide)
     (by decide)).2.1⟩

/-- C10: a rule containing node_id but no population key is omitted entirely
from the output of `_update_node_sets` and its name is warned about; every
rule without node_id is passed through unchanged; and the remapped node_id
list of every kept node_id rule is sorted ascending by new id. -/
theorem update_node_sets_shape_spec (node_sets : List (String × NodeSetRule))
    (id_mapping : List (String × List (Int × Nat)))
    (hnd : (node_sets.map Prod.fst).Nodup) :
    (∀ (name : String) (node_id : List Int),
      (name, NodeSetRule.nodeIds none node_id) ∈ node_sets →
      (∀ r, (name, r) ∉ (_update_node_sets node_sets id_mapping).1) ∧
      name ∈ (_update_node_sets node_sets id_mapping).2) ∧
    (∀ (name : String) (payload : Nat),
      (name, NodeSetRule.passthrough payload) ∈ node_sets →
      (name, NodeSetRule.passthrough payload) ∈
        (_update_node_sets node_sets id_mapping).1) ∧
    (∀ (name : String) (population : Option String) (node_id : List Int),
      (name, NodeSetRule.nodeIds population node_id) ∈
        (_update_node_sets node_sets id_mapping).1 →
      node_id.Sorted (· ≤ ·)) := by
  rw [update_node_sets_eq]
  refine ⟨?_, ?_, ?_⟩
  · intro name node_id hmem
    constructor
    · intro r hr
      obtain ⟨q, hq, hqr⟩ := List.mem_filterMap.mp hr
      have hq1 : q.1 = name := by
        rcases q with ⟨qn, qr⟩
        cases qr with
        | passthrough payload =>
          simp only [update_rule, Option.some.injEq] at hqr
          exact congrArg Prod.fst hqr
        | nodeIds population3 node_id3 =>
          cases population3 with
          | none => simp [update_rule] at hqr
          | some popname3 =>
            cases hl : lookup_population id_mapping popname3 with
            | none => simp [update_rule, hl] at hqr
            | some mapping3 =>
              simp only [update_rule, hl, Option.some.injEq] at hqr
              exact congrArg Prod.fst hqr
      have hqeq : q = (name, NodeSetRule.nodeIds none node_id) :=
        assoc_nodup_eq hnd hq hmem hq1
      rw [hqeq] at hqr
      simp [update_rule] at hqr
    · refine List.mem_filterMap.mpr
        ⟨(name, NodeSetRule.nodeIds none node_id), hmem, rfl⟩
  · intro name payload hmem
    exact List.mem_filterMap.mpr
      ⟨(name, NodeSetRule.passthrough payload), hmem, rfl⟩
  · intro name population node_id hr
    obtain ⟨q, hq, hqr⟩ := List.mem_filterMap.mp hr
    rcases q with ⟨qn, qr⟩
    cases qr with
    | passthrough payload => simp [update_rule] at hqr
    | nodeIds population3 node_id3 =>
      cases population3 with
      | none => simp [update_rule] at hqr
      | some popname3 =>
        cases hl : lookup_population id_mapping popname3 with
        | none => simp [update_rule, hl] at hqr
        | some mapping3 =>
          simp only [update_rule, hl, Option.some.injEq, Prod.mk.injEq,
            NodeSetRule.nodeIds.injEq] at hqr
          obtain ⟨-, -, hids⟩ := hqr
          rw [← hids, remap_node_ids]
          have hpw := @List.sorted_mergeSort Int (fun a b => decide (a ≤ b))
            (fun a b c hab hbc => by
              simp only [decide_eq_true_eq] at hab hbc ⊢
              exact le_trans hab hbc)
            (fun a b => by
              simp only [Bool.or_eq_true, decide_eq_true_eq]
              exact le_total a b)
            ((mapping3.filter (fun q => decide (q.1 ∈ node_id3))).map
              (fun q => (q.2 : Int)))
          exact hpw.imp (fun hab => by simpa using hab)

theorem update_node_sets_shape_spec_witness :
    (([("a", NodeSetRule.passthrough 7),
       ("b", NodeSetRule.nodeIds none [1])].map Prod.fst).Nodup ∧
      ("b", NodeSetRule.nodeIds none [(1 : Int)]) ∈
        [("a", NodeSetRule.passthrough 7),
         ("b", NodeSetRule.nodeIds none [1])]) ∧
    ("b" ∈ (_update_node_sets
        [("a", NodeSetRule.passthrough 7),
         ("b", NodeSetRule.nodeIds none [1])] []).2 ∧
      ("a", NodeSetRule.passthrough 7) ∈
        (_update_node_sets
          [("a", NodeSetRule.passthrough 7),
           ("b", NodeSetRule.nodeIds none [1])] []).1) :=
  ⟨⟨by decide, by decide⟩,
   ((update_node_sets_shape_spec
       [("a", NodeSetRule.passthrough 7), ("b", NodeSetRule.nodeIds none [1])]
       [] (by decide)).1 "b" [1] (by decide)).2,
   (update_node_sets_shape_spec
       [("a", NodeSetRule.passthrough 7), ("b", NodeSetRule.nodeIds none [1])]
       [] (by decide)).2.1 "a" 7 (by decide)⟩

end SplitPopulation
